import Mathlib

/-!
Formal model of `src/NaiveBayesSource/Source_NaiveBayesyClassfier.py`.

Encoding conventions used throughout this development:

* Python floats are modelled by the rationals `ℚ`; all arithmetic performed by
  the program (expected-likelihood smoothing, products, normalization) is exact
  rational arithmetic, so the floating-point program is the rounding of these
  values.
* The per-label log-scores that `prob_classify` accumulates in log space
  (base 2) are represented by their exponentials, i.e. by multiplicative
  weights in `ℚ`.  This encoding is injective: a finite log-score `x`
  corresponds to the weight `2 ^ x > 0` and the value `-inf` (produced by
  `sum_logs([])` and by `logprob` of a zero probability) corresponds to the
  weight `0`.  Adding log-terms becomes multiplying weights, `sum_logs` over
  the label scores becomes the sum of the weights, and the normalization
  `logprob - value_sum` becomes division by that sum.
* Python dicts are modelled by insertion-ordered association lists, with
  lookup returning the (unique) binding of a key; Python sets are modelled by
  duplicate-free lists.  Iteration order of a CPython set is determined by the
  element hashes and is not the insertion order, so wherever the program
  iterates over a set in an order-relevant position we iterate in a fixed
  canonical order on the elements (a linear order), which like the hash order
  does not depend on the history of insertions.
* The external estimator `nltk.probability.ELEProbDist` (Lidstone smoothing
  with gamma = 1/2) and `nltk.probability.DictionaryProbDist` are not part of
  the repository; they are modelled from the spec (section 4.1) and from their
  documented behaviour: `prob(v) = (count v + 1/2) / (N + bins/2)`, degrading
  to the raw count over divisor 1 when the divisor is zero, and dictionary
  normalization which raises on an empty dictionary (modelled by `none`) and
  falls back to the uniform distribution when every score is `-inf` (weight
  sum zero).
-/

namespace NB

/-- Labels are opaque hashable identifiers; the program uses strings. -/
abbrev Label := String

/-- Feature names are opaque hashable keys; the program uses strings. -/
abbrev Fname := String

/-- Raw feature values supplied by callers.  The reserved Python value `None`
(the UNSET marker) is modelled separately as `Option.none`, so a raw value can
never collide with it. -/
abbrev Fval := String

/-- A feature set: a Python dict from feature name to feature value, modelled
as an insertion-ordered association list. -/
abbrev FeatureSet := List (Fname × Fval)

/-- Dict lookup: the value bound to the first (unique, for genuine dicts)
occurrence of the key, or `none` (a Python KeyError) when absent. -/
def alookup {α β : Type} [DecidableEq α] : α → List (α × β) → Option β
  | _, [] => none
  | k, (a, b) :: rest => if a = k then some b else alookup k rest

/-- Adds an element at the end unless already present: one step of building a
first-occurrence-ordered list of distinct elements. -/
def insertNew {α : Type} [DecidableEq α] (l : List α) (x : α) : List α :=
  if x ∈ l then l else l ++ [x]

/-- The distinct elements of a list in order of first occurrence: the key
order of a Python dict or counter built by repeated insertion. -/
def firstOccs {α : Type} [DecidableEq α] (l : List α) : List α :=
  l.foldl insertNew []

theorem foldl_insertNew_mem {α : Type} [DecidableEq α] (l : List α) :
    ∀ (acc : List α) (x : α), x ∈ l.foldl insertNew acc ↔ x ∈ acc ∨ x ∈ l := by
  induction l with
  | nil => simp
  | cons a l ih =>
    intro acc x
    simp only [List.foldl_cons, ih, insertNew]
    by_cases h : a ∈ acc
    · simp only [h, if_true, List.mem_cons]
      constructor
      · rintro (hx | hx)
        · exact Or.inl hx
        · exact Or.inr (Or.inr hx)
      · rintro (hx | rfl | hx)
        · exact Or.inl hx
        · exact Or.inl h
        · exact Or.inr hx
    · simp only [h, if_false, List.mem_append, List.mem_singleton, List.mem_cons]
      tauto

theorem mem_firstOccs {α : Type} [DecidableEq α] (l : List α) (x : α) :
    x ∈ firstOccs l ↔ x ∈ l := by
  simp [firstOccs, foldl_insertNew_mem]

theorem foldl_insertNew_nodup {α : Type} [DecidableEq α] (l : List α) :
    ∀ acc : List α, acc.Nodup → (l.foldl insertNew acc).Nodup := by
  induction l with
  | nil => exact fun acc h => h
  | cons a l ih =>
    intro acc hacc
    simp only [List.foldl_cons]
    apply ih
    unfold insertNew
    by_cases h : a ∈ acc
    · simpa [h] using hacc
    · simp only [h, if_false]
      refine List.Nodup.append hacc (List.nodup_singleton a) ?_
      intro b hb hb1
      rw [List.mem_singleton] at hb1
      subst hb1
      exact h hb

theorem nodup_firstOccs {α : Type} [DecidableEq α] (l : List α) :
    (firstOccs l).Nodup :=
  foldl_insertNew_nodup l [] List.nodup_nil

theorem firstOccs_eq_nil_iff {α : Type} [DecidableEq α] (l : List α) :
    firstOccs l = [] ↔ l = [] := by
  constructor
  · intro h
    cases l with
    | nil => rfl
    | cons a l =>
      exfalso
      have : a ∈ firstOccs (a :: l) := (mem_firstOccs _ _).mpr (List.mem_cons_self a l)
      rw [h] at this
      exact (List.not_mem_nil a) this
  · intro h; subst h; rfl

/-- The classifier model, as built by `NaiveBayesClassifier.__init__`:
the label prior distribution (an ELE estimate described by its frequency
data), and the conditional distribution table `feature_probdist`, one smoothed
distribution per `(label, fname)` key, each described by its frequency counts,
total, declared sample-space size `bins`, and observed sample list. -/
structure Model where
  /-- The field `_labels`, i.e. `list(label_probdist.samples())`. -/
  labels : List Label
  /-- Total count of the label frequency distribution behind the prior. -/
  priorN : ℕ
  /-- Per-label count of the label frequency distribution behind the prior. -/
  priorCount : Label → ℕ
  /-- Number of bins of the prior estimator. -/
  priorBins : ℕ
  /-- The keys of the dict `feature_probdist`. -/
  pdKeys : List (Label × Fname)
  /-- Counts of the frequency distribution behind `feature_probdist[l, f]`;
  the argument `none` is the reserved UNSET value added by imputation. -/
  condCount : Label → Fname → Option Fval → ℕ
  /-- Total count of the frequency distribution behind `feature_probdist[l, f]`. -/
  condTotal : Label → Fname → ℕ
  /-- The `bins` argument the estimator received for `feature_probdist[l, f]`. -/
  condBins : Label → Fname → ℕ
  /-- The sample list of `feature_probdist[l, f]`, i.e. the keys of its
  frequency distribution. -/
  condSamples : Label → Fname → List (Option Fval)

/-- The ambient global state consumed by `prob_classify`: the dict
`is_frequent` flagging frequent feature names, and the override table
`frequent_probdist` keyed by `(label, fname)`. -/
structure Overrides where
  is_frequent : List (Fname × Bool)
  frequent_probdist : List ((Label × Fname) × ℚ)

/-- Overrides with an empty override table (the is-frequent flags are kept):
the state in which the override branch always falls back. -/
def ovNone (ov : Overrides) : Overrides :=
  { ov with frequent_probdist := [] }

/-- Removes the single override entry for the key `(l, f)`. -/
def eraseOverride (ov : Overrides) (l : Label) (f : Fname) : Overrides :=
  { ov with frequent_probdist := ov.frequent_probdist.filter (fun p => p.1 ≠ (l, f)) }

/-- Modelled from the spec: the external estimator `nltk.probability.ELEProbDist`
(Lidstone with gamma = 1/2), per spec section 4.1: `(c + 1/2) / (N + bins/2)`,
degrading to count over divisor 1 when the divisor is zero (then gamma is
reset to 0), as in `LidstoneProbDist.__init__`. -/
def eleProb (c N B : ℕ) : ℚ :=
  if N = 0 ∧ B = 0 then (c : ℚ) else ((c : ℚ) + 1/2) / ((N : ℚ) + (B : ℚ)/2)

/-- The prior probability `label_probdist.prob(l)`. -/
def Model.priorProb (m : Model) (l : Label) : ℚ :=
  eleProb (m.priorCount l) m.priorN m.priorBins

/-- The conditional probability `feature_probdist[l, f].prob(v)`. -/
def Model.condProb (m : Model) (l : Label) (f : Fname) (v : Option Fval) : ℚ :=
  eleProb (m.condCount l f v) (m.condTotal l f) (m.condBins l f)

/-- Membership test `(l, f) in self._feature_probdist`. -/
def Model.hasPD (m : Model) (l : Label) (f : Fname) : Bool :=
  decide ((l, f) ∈ m.pdKeys)

/-- The for-else test of the discard loop in `prob_classify`: a feature name
is kept iff some label has a conditional distribution for it. -/
def keepFname (m : Model) (f : Fname) : Bool :=
  m.labels.any fun l => m.hasPD l f

/-- The discard loop of `prob_classify`: every feature name that no label has
an entry for is deleted from the (copied) feature set. -/
def filterFS (m : Model) (fs : FeatureSet) : FeatureSet :=
  fs.filter fun p => keepFname m p.1

/-- The multiplicative weight one `(fname, fval)` item contributes to the
log-score of label `l` (the exponential of the added log term).  Mirrors the
inner loop of `prob_classify`: when `(l, f)` is a key of the table, the code
tries the frequency override, and on any failure of that branch (missing
`is_frequent` entry, missing `frequent_probdist` entry, or `math.log` raising
on a non-positive override value) the blanket `except:` falls back to the
models own `logprob(fval)`; with the key absent the code adds
`sum_logs([]) = -inf`, i.e. weight 0. -/
def featureFactor (m : Model) (ov : Overrides) (l : Label) (f : Fname) (v : Fval) : ℚ :=
  if m.hasPD l f then
    match alookup f ov.is_frequent with
    | some true =>
      match alookup (l, f) ov.frequent_probdist with
      | some p => if 0 < p then p else m.condProb l f (some v)
      | none => m.condProb l f (some v)
    | some false => m.condProb l f (some v)
    | none => m.condProb l f (some v)
  else 0

/-- The weight (exponential of the accumulated log-score) of label `l` on an
already filtered feature set: the prior factor times one factor per item. -/
def labelWeight (m : Model) (ov : Overrides) (fs : FeatureSet) (l : Label) : ℚ :=
  fs.foldl (fun acc p => acc * featureFactor m ov l p.1 p.2) (m.priorProb l)

/-- Modelled from the spec: `DictionaryProbDist(w, normalize=True, log=True)`
of nltk, in weight space.  An empty dictionary raises a ValueError (modelled
by `none`); when the weight sum is zero (every log-score was `-inf`) each
sample receives the uniform probability; otherwise every weight is divided by
the sum. -/
def normalizeDict (w : List (Label × ℚ)) : Option (List (Label × ℚ)) :=
  if w.isEmpty then none
  else if (w.map Prod.snd).sum = 0 then some (w.map fun p => (p.1, (1 : ℚ) / w.length))
  else some (w.map fun p => (p.1, p.2 / (w.map Prod.snd).sum))

/-- The scoring core of `prob_classify` after the discard loop: one weight per
label in `self._labels`, then dictionary normalization. -/
def scoreFiltered (m : Model) (ov : Overrides) (fs : FeatureSet) :
    Option (List (Label × ℚ)) :=
  normalizeDict (m.labels.map fun l => (l, labelWeight m ov fs l))

/-- The method `prob_classify` (the spec operation `score_all`): discard
unseen feature names from a copy of the input, score every label, normalize. -/
def prob_classify (m : Model) (ov : Overrides) (fs : FeatureSet) :
    Option (List (Label × ℚ)) :=
  scoreFiltered m ov (filterFS m fs)

/-- The probability a returned dictionary distribution assigns to a label:
the stored value, or 0 for a label that is not a key. -/
def dictProb (d : List (Label × ℚ)) (l : Label) : ℚ :=
  (alookup l d).getD 0

/-- The probability `score_all` assigns to one label (through the raised
error, when any). -/
def scoreAt (m : Model) (ov : Overrides) (fs : FeatureSet) (l : Label) : Option ℚ :=
  (prob_classify m ov fs).map fun d => dictProb d l

/-- One comparison step of the Python `max` over the tuples `(p, v)` built
from the dictionary items `(v, p)`: the candidate replaces the current best
exactly when it is strictly greater in the lexicographic tuple order. -/
def pairMax (a b : Label × ℚ) : Label × ℚ :=
  if a.2 < b.2 ∨ (a.2 = b.2 ∧ a.1 < b.1) then b else a

/-- The method `DictionaryProbDist.max`: the sample of the greatest
`(probability, sample)` tuple, an error (`none`) on an empty dictionary. -/
def dictMax : List (Label × ℚ) → Option Label
  | [] => none
  | x :: xs => some (xs.foldl pairMax x).1

/-- The method `classify`: the maximizing label of `prob_classify`. -/
def classify (m : Model) (ov : Overrides) (fs : FeatureSet) : Option Label :=
  (prob_classify m ov fs).bind dictMax

/-! ### Training (`NaiveBayesClassifier.train`) -/

/-- The distinct labels in first-occurrence order: the key order of the
counter `label_freqdist` and hence `list(label_probdist.samples())`. -/
def labelsOf (ex : List (FeatureSet × Label)) : List Label :=
  firstOccs (ex.map Prod.snd)

/-- The count `label_freqdist[l]`. -/
def labelN (ex : List (FeatureSet × Label)) (l : Label) : ℕ :=
  (ex.map Prod.snd).count l

/-- All `(fname, fval)` items of the examples carrying label `l`, in
iteration order. -/
def itemsOfLabel (ex : List (FeatureSet × Label)) (l : Label) : List (Fname × Fval) :=
  (ex.filter fun e => e.2 = l).flatMap Prod.fst

/-- All `(fname, fval)` items across all examples, in iteration order. -/
def allItems (ex : List (FeatureSet × Label)) : List (Fname × Fval) :=
  ex.flatMap Prod.fst

/-- The set `fnames` of all feature names seen in training. -/
def fnamesOf (ex : List (FeatureSet × Label)) : List Fname :=
  firstOccs ((allItems ex).map Prod.fst)

/-- The count `feature_freqdist[l, f][v]` before imputation. -/
def rawCount (ex : List (FeatureSet × Label)) (l : Label) (f : Fname) (v : Fval) : ℕ :=
  (itemsOfLabel ex l).count (f, v)

/-- The total `feature_freqdist[l, f].N()` before imputation. -/
def rawTotal (ex : List (FeatureSet × Label)) (l : Label) (f : Fname) : ℕ :=
  (itemsOfLabel ex l).countP fun p => p.1 = f

/-- The shortfall `num_samples - count` attributed to the UNSET value `None`
by the imputation loop (0 when there is no shortfall). -/
def missingN (ex : List (FeatureSet × Label)) (l : Label) (f : Fname) : ℕ :=
  labelN ex l - rawTotal ex l f

/-- The distinct values feature `f` takes among examples with label `l`, in
first-occurrence order: the key order of `feature_freqdist[l, f]` before the
possible `None` key. -/
def rawValuesFor (ex : List (FeatureSet × Label)) (l : Label) (f : Fname) : List Fval :=
  firstOccs (((itemsOfLabel ex l).filter fun p => p.1 = f).map Prod.snd)

/-- The distinct values feature `f` takes across all labels: the set
`feature_values[f]` before the possible addition of `None`. -/
def rawValues (ex : List (FeatureSet × Label)) (f : Fname) : List Fval :=
  firstOccs (((allItems ex).filter fun p => p.1 = f).map Prod.snd)

/-- Whether the imputation loop added `None` to `feature_values[f]`: some
seen label has fewer recorded values for `f` than examples. -/
def noneAdded (ex : List (FeatureSet × Label)) (f : Fname) : Bool :=
  (labelsOf ex).any fun l => rawTotal ex l f < labelN ex l

/-- The sample-space size `len(feature_values[fname])` passed as `bins` when
fitting every conditional distribution for feature `f`. -/
def globalBins (ex : List (FeatureSet × Label)) (f : Fname) : ℕ :=
  (rawValues ex f).length + (if noneAdded ex f then 1 else 0)

/-- The classmethod `train`.  The key set of `feature_probdist` is the full
product of seen labels and seen feature names: the imputation loop accesses
`feature_freqdist[label, fname]` for every such pair, and the defaultdict
access creates any missing entry (every entry then receives a positive count,
either from the training loop or from the `None` shortfall).  The order in
which we list the product is immaterial: the key list is only ever used
through membership and through set-canonicalized iteration. -/
def train (ex : List (FeatureSet × Label)) : Model where
  labels := labelsOf ex
  priorN := ex.length
  priorCount := fun l => labelN ex l
  priorBins := (labelsOf ex).length
  pdKeys := (labelsOf ex).flatMap fun l => (fnamesOf ex).map fun f => (l, f)
  condCount := fun l f v =>
    match v with
    | some w => rawCount ex l f w
    | none => missingN ex l f
  condTotal := fun l f => rawTotal ex l f + missingN ex l f
  condBins := fun _ f => globalBins ex f
  condSamples := fun l f =>
    (rawValuesFor ex l f).map some ++ (if 0 < missingN ex l f then [none] else [])

/-- Modelled from the spec: training including the failure of the external
prior estimator — fitting `ELEProbDist(label_freqdist)` on an empty frequency
distribution raises a ValueError (spec sections 4.1 and 7; nltk
`LidstoneProbDist.__init__` rejects `bins is None and freqdist.N() == 0`). -/
def trainChecked (ex : List (FeatureSet × Label)) : Option Model :=
  if ex.isEmpty then none else some (train ex)

/-! ### Feature importance (`most_informative_features`) -/

/-- A candidate feature of `most_informative_features`: an `(fname, fval)`
pair, where the value may be the reserved `None`. -/
abbrev Feat := Fname × Option Fval

/-- Python set add: appends unless present. -/
def setAdd (l : List Feat) (x : Feat) : List Feat :=
  if x ∈ l then l else l ++ [x]

/-- Python set discard: removes the element if present. -/
def setDiscard (l : List Feat) (x : Feat) : List Feat :=
  l.filter fun y => y ≠ x

/-- Pointwise update of a defaultdict modelled as a function. -/
def fupd (g : Feat → ℚ) (x : Feat) (v : ℚ) : Feat → ℚ :=
  fun y => if y = x then v else g y

/-- The running state of the loop in `most_informative_features`: the set
`features` and the defaultdicts `maxprob` (default 0) and `minprob`
(default 1). -/
structure MIFState where
  features : List Feat
  maxprob : Feat → ℚ
  minprob : Feat → ℚ

/-- One iteration of the inner loop of `most_informative_features` on the
encounter of feature `e.1` with probability `e.2`: add to the set, update the
max and min, and discard again whenever the running minimum is zero. -/
def mifStep (s : MIFState) (e : Feat × ℚ) : MIFState :=
  let fts := setAdd s.features e.1
  let mx := fupd s.maxprob e.1 (max e.2 (s.maxprob e.1))
  let mn := fupd s.minprob e.1 (min e.2 (s.minprob e.1))
  { features := if mn e.1 = 0 then setDiscard fts e.1 else fts
    maxprob := mx
    minprob := mn }

/-- The sequence of `(feature, probability)` encounters produced by iterating
over `feature_probdist.items()` and, per entry, over `probdist.samples()`. -/
def encounters (m : Model) : List (Feat × ℚ) :=
  m.pdKeys.flatMap fun lf =>
    (m.condSamples lf.1 lf.2).map fun v => ((lf.2, v), m.condProb lf.1 lf.2 v)

/-- The state after the full double loop of `most_informative_features`. -/
def mifFinal (m : Model) : MIFState :=
  (encounters m).foldl mifStep ⟨[], fun _ => 0, fun _ => 1⟩

/-- The canonical key of a feature: its name, then its value with the
reserved `None` below every string, ordered lexicographically. -/
def featKey (ft : Feat) : Lex (String × WithBot String) :=
  toLex (ft.1, match ft.2 with | none => ⊥ | some v => (v : WithBot String))

/-- Canonical iteration order on features, used to model CPython set
iteration (which is fixed by the element hashes, independent of the insertion
history): name first, then value, with `None` before every string. -/
def featLE (a b : Feat) : Bool :=
  decide (featKey a ≤ featKey b)

/-- The sort key `minprob[feature_] / maxprob[feature_]`; Python sorted is
ascending in this key, which for positive probabilities is descending in the
informativeness ratio max/min. -/
def mifLE (s : MIFState) (a b : Feat) : Bool :=
  decide (s.minprob a / s.maxprob a ≤ s.minprob b / s.maxprob b)

/-- The method `most_informative_features`: run the loop, iterate the
resulting set in canonical order, sort ascending by min/max, return the
first `n`. -/
def most_informative_features (m : Model) (n : ℕ) : List Feat :=
  (((mifFinal m).features.mergeSort featLE).mergeSort (mifLE (mifFinal m))).take n

/-! ### The frame behaviour of `prob_classify` (the copy before deletion) -/

/-- Deletes every binding of a feature name from a dict. -/
def dictDel (d : FeatureSet) (f : Fname) : FeatureSet :=
  d.filter fun p => p.1 ≠ f

/-- The discard loop of `prob_classify` executed statement by statement on an
explicit pair of dict objects: the first component is the object the caller
passed in, the second is the local object the method works on.  Deletion only
ever touches the second. -/
def delLoop (m : Model) : FeatureSet × FeatureSet → List Fname → FeatureSet × FeatureSet
  | s, [] => s
  | s, f :: rest =>
    if keepFname m f then delLoop m s rest
    else delLoop m (s.1, dictDel s.2 f) rest

/-- The method `prob_classify` with the heap made explicit: the line
`featureset = featureset.copy()` rebinds the local name to a fresh dict with
the same contents, the deletion loop runs on that copy over a snapshot of its
keys, and the result is scored from the copy.  Returns the dict the caller
passed (as the call leaves it) together with the returned distribution. -/
def prob_classify_frame (m : Model) (ov : Overrides) (caller : FeatureSet) :
    FeatureSet × Option (List (Label × ℚ)) :=
  ((delLoop m (caller, caller) (caller.map Prod.fst)).1,
    scoreFiltered m ov (delLoop m (caller, caller) (caller.map Prod.fst)).2)

/-! ### The association-rule override construction (`count`, `normal_probability`) -/

/-- Python dict assignment `d[k] = v`: overwrites the binding in place when
the key is present, appends otherwise. -/
def dictSet {α β : Type} [DecidableEq α] (d : List (α × β)) (k : α) (v : β) : List (α × β) :=
  if (alookup k d).isSome then d.map fun p => if p.1 = k then (k, v) else p
  else d ++ [(k, v)]

/-- The function `count`: over the items of one feature set, counts (as
floats) how many items carry a frequent feature name, and per such name how
often it occurs; a missing `is_frequent` entry is skipped by the
`except: continue`. -/
def count (is_frequent : List (Fname × Bool)) (featureset : FeatureSet) :
    ℚ × List (Fname × ℚ) :=
  featureset.foldl
    (fun st p =>
      match alookup p.1 is_frequent with
      | some true =>
        (st.1 + 1, dictSet st.2 p.1 ((alookup p.1 st.2).getD 0 + 1))
      | _ => st)
    (0, [])

/-- The override table built by `normal_probability`, translated branch by
branch: per training example, per item with a frequent name, when the label
is spam the entry becomes `count_fname[fname] / (count_frequent +
len(spam_frequent))`, and otherwise (the ham branch) the entry is computed by
the very same expression, again with `len(spam_frequent)`.  A missing
`is_frequent` or `count_fname` entry, and a zero denominator, are skipped by
the `except: continue`. -/
def normal_probability (is_frequent : List (Fname × Bool)) (spam_frequent : List Fname)
    (train_set : List (FeatureSet × Label)) : List ((Label × Fname) × ℚ) :=
  train_set.foldl
    (fun fpd e =>
      e.1.foldl
        (fun fpd p =>
          match alookup p.1 is_frequent with
          | some true =>
            if e.2 = "spam" then
              match alookup p.1 (count is_frequent e.1).2 with
              | some numerator =>
                if (count is_frequent e.1).1 + (spam_frequent.length : ℚ) = 0 then fpd
                else dictSet fpd (e.2, p.1)
                  (numerator / ((count is_frequent e.1).1 + (spam_frequent.length : ℚ)))
              | none => fpd
            else
              match alookup p.1 (count is_frequent e.1).2 with
              | some numerator =>
                if (count is_frequent e.1).1 + (spam_frequent.length : ℚ) = 0 then fpd
                else dictSet fpd (e.2, p.1)
                  (numerator / ((count is_frequent e.1).1 + (spam_frequent.length : ℚ)))
              | none => fpd
          | _ => fpd)
        fpd)
    []

/-- The label-blind version of `normal_probability` that the branches of the
source collapse to: one formula, no test of the label. -/
def normalProbabilityUniform (is_frequent : List (Fname × Bool)) (spam_frequent : List Fname)
    (train_set : List (FeatureSet × Label)) : List ((Label × Fname) × ℚ) :=
  train_set.foldl
    (fun fpd e =>
      e.1.foldl
        (fun fpd p =>
          match alookup p.1 is_frequent with
          | some true =>
            match alookup p.1 (count is_frequent e.1).2 with
            | some numerator =>
              if (count is_frequent e.1).1 + (spam_frequent.length : ℚ) = 0 then fpd
              else dictSet fpd (e.2, p.1)
                (numerator / ((count is_frequent e.1).1 + (spam_frequent.length : ℚ)))
            | none => fpd
          | _ => fpd)
        fpd)
    []

/-! ### General helper lemmas -/

theorem alookup_filter_ne {α β : Type} [DecidableEq α] (k k0 : α) (d : List (α × β)) :
    alookup k (d.filter fun p => p.1 ≠ k0) =
      if k = k0 then none else alookup k d := by
  induction d with
  | nil => simp [alookup]
  | cons a d ih =>
    rcases a with ⟨a1, a2⟩
    by_cases h1 : a1 = k0
    · have hd : decide (a1 ≠ k0) = false := by simp [h1]
      simp only [List.filter_cons, hd, Bool.false_eq_true, if_false, ih]
      by_cases h2 : k = k0
      · simp [h2]
      · have ha : a1 ≠ k := by rw [h1]; exact fun h => h2 h.symm
        simp [alookup, h2, ha]
    · have hd : decide (a1 ≠ k0) = true := by simp [h1]
      simp only [List.filter_cons, hd, if_true]
      by_cases h2 : a1 = k
      · have hk : ¬ k = k0 := fun h => h1 ((h2.trans h))
        simp [alookup, h2, hk]
      · simp only [alookup, h2, if_false]
        exact ih

theorem foldl_congrF {α β : Type} (f g : β → α → β) (h : ∀ b a, f b a = g b a) :
    ∀ (l : List α) (b : β), l.foldl f b = l.foldl g b := by
  intro l
  induction l with
  | nil => intro b; rfl
  | cons a l ih => intro b; simp only [List.foldl_cons, h, ih]

theorem eleProb_nonneg (c N B : ℕ) : 0 ≤ eleProb c N B := by
  unfold eleProb
  split
  · positivity
  · apply div_nonneg
    · positivity
    · positivity

theorem eleProb_pos (c N B : ℕ) (h : ¬(N = 0 ∧ B = 0)) : 0 < eleProb c N B := by
  unfold eleProb
  rw [if_neg h]
  apply div_pos
  · positivity
  · have hN0 : (0 : ℚ) ≤ (N : ℚ) := by positivity
    have hB0 : (0 : ℚ) ≤ (B : ℚ) := by positivity
    rcases Nat.eq_zero_or_pos N with hN | hN
    · rcases Nat.eq_zero_or_pos B with hB | hB
      · exact absurd ⟨hN, hB⟩ h
      · have : (1 : ℚ) ≤ (B : ℚ) := by exact_mod_cast hB
        linarith
    · have : (1 : ℚ) ≤ (N : ℚ) := by exact_mod_cast hN
      linarith

theorem list_sum_div (l : List ℚ) (c : ℚ) :
    (l.map fun x => x / c).sum = l.sum / c := by
  induction l with
  | nil => simp
  | cons a l ih => simp [ih, add_div]

theorem featureFold_pos (m : Model) (ov : Overrides) (l : Label) :
    ∀ (fs : List (Fname × Fval)) (acc : ℚ), 0 < acc →
      (∀ p ∈ fs, 0 < featureFactor m ov l p.1 p.2) →
      0 < fs.foldl (fun acc p => acc * featureFactor m ov l p.1 p.2) acc := by
  intro fs
  induction fs with
  | nil => exact fun acc h _ => h
  | cons a fs ih =>
    intro acc hacc hf
    simp only [List.foldl_cons]
    exact ih _ (mul_pos hacc (hf a (List.mem_cons_self a fs)))
      fun p hp => hf p (List.mem_cons_of_mem a hp)

theorem mem_pdKeys_train (ex : List (FeatureSet × Label)) (l : Label) (f : Fname) :
    (l, f) ∈ (train ex).pdKeys ↔ l ∈ labelsOf ex ∧ f ∈ fnamesOf ex := by
  simp only [train, List.mem_flatMap, List.mem_map]
  constructor
  · rintro ⟨l0, hl0, f0, hf0, heq⟩
    obtain ⟨h1, h2⟩ := Prod.mk.injEq .. ▸ heq
    exact ⟨h1 ▸ hl0, h2 ▸ hf0⟩
  · rintro ⟨hl, hf⟩
    exact ⟨l, hl, f, hf, rfl⟩

/-! ### Concrete fixtures used by witnesses and counterexamples -/

/-- A small training corpus: three spam examples and one ham example with
value buy, two ham examples with value hello, all for feature w. -/
def exA : List (FeatureSet × Label) :=
  [([("w", "buy")], "spam"), ([("w", "buy")], "spam"), ([("w", "buy")], "spam"),
   ([("w", "buy")], "ham"), ([("w", "hello")], "ham"), ([("w", "hello")], "ham")]

/-- No frequent flags and no override table. -/
def ov0 : Overrides := ⟨[], []⟩

/-- The feature w is flagged frequent and its spam override probability is the
invalid value 0. -/
def ovZero : Overrides := ⟨[("w", true)], [(("spam", "w"), 0)]⟩

/-- The feature w is flagged frequent but the override table has no entry. -/
def ovMissing : Overrides := ⟨[("w", true)], []⟩

/-! ### Positivity of trained scores -/

theorem labelsOf_ne_nil (ex : List (FeatureSet × Label)) (hex : ex ≠ []) :
    labelsOf ex ≠ [] := by
  rw [labelsOf, Ne, firstOccs_eq_nil_iff]
  simpa using hex

theorem train_condBins_eq (ex : List (FeatureSet × Label)) (l : Label) (f : Fname) :
    (train ex).condBins l f = globalBins ex f := rfl

theorem train_priorN_eq (ex : List (FeatureSet × Label)) :
    (train ex).priorN = ex.length := rfl

theorem keep_mem_fnames (ex : List (FeatureSet × Label)) (f : Fname)
    (h : keepFname (train ex) f = true) : f ∈ fnamesOf ex := by
  rw [keepFname, List.any_eq_true] at h
  obtain ⟨l, _, hpd⟩ := h
  rw [Model.hasPD, decide_eq_true_eq] at hpd
  exact ((mem_pdKeys_train ex l f).mp hpd).2

theorem globalBins_pos (ex : List (FeatureSet × Label)) (f : Fname)
    (hf : f ∈ fnamesOf ex) : 0 < globalBins ex f := by
  rw [fnamesOf, mem_firstOccs, List.mem_map] at hf
  obtain ⟨p, hp, hpf⟩ := hf
  have hv : p.2 ∈ rawValues ex f := by
    rw [rawValues, mem_firstOccs]
    exact List.mem_map.mpr ⟨p, List.mem_filter.mpr ⟨hp, by simp [hpf]⟩, rfl⟩
  have hlen : 0 < (rawValues ex f).length :=
    List.length_pos.mpr (List.ne_nil_of_mem hv)
  rw [globalBins]
  omega

theorem condProb_train_pos (ex : List (FeatureSet × Label)) (l : Label) (f : Fname)
    (v : Option Fval) (hf : f ∈ fnamesOf ex) : 0 < (train ex).condProb l f v := by
  apply eleProb_pos
  rintro ⟨-, hB⟩
  rw [train_condBins_eq] at hB
  have := globalBins_pos ex f hf
  omega

theorem priorProb_train_pos (ex : List (FeatureSet × Label)) (hex : ex ≠ [])
    (l : Label) : 0 < (train ex).priorProb l := by
  apply eleProb_pos
  rintro ⟨hN, -⟩
  rw [train_priorN_eq] at hN
  exact hex (List.length_eq_zero.mp hN)

theorem featureFactor_train_pos (ex : List (FeatureSet × Label)) (ov : Overrides)
    (l : Label) (f : Fname) (v : Fval) (hl : l ∈ labelsOf ex) (hf : f ∈ fnamesOf ex) :
    0 < featureFactor (train ex) ov l f v := by
  have hpd : (train ex).hasPD l f = true := by
    rw [Model.hasPD, decide_eq_true_eq]
    exact (mem_pdKeys_train ex l f).mpr ⟨hl, hf⟩
  have hcond := condProb_train_pos ex l f (some v) hf
  unfold featureFactor
  simp only [hpd, if_true]
  cases h1 : alookup f ov.is_frequent with
  | none => exact hcond
  | some b =>
    cases b with
    | false => exact hcond
    | true =>
      cases h2 : alookup (l, f) ov.frequent_probdist with
      | none => exact hcond
      | some p =>
        show 0 < if 0 < p then p else (train ex).condProb l f (some v)
        by_cases h3 : 0 < p
        · rw [if_pos h3]; exact h3
        · rw [if_neg h3]; exact hcond

theorem labelWeight_train_pos (ex : List (FeatureSet × Label)) (hex : ex ≠ [])
    (ov : Overrides) (fs : FeatureSet) (l : Label) (hl : l ∈ labelsOf ex) :
    0 < labelWeight (train ex) ov (filterFS (train ex) fs) l := by
  unfold labelWeight
  refine featureFold_pos (train ex) ov l _ _ (priorProb_train_pos ex hex l) ?_
  intro p hp
  have hkeep : keepFname (train ex) p.1 = true := by
    unfold filterFS at hp
    exact (List.mem_filter.mp hp).2
  exact featureFactor_train_pos ex ov l p.1 p.2 hl (keep_mem_fnames ex p.1 hkeep)

/-- The unnormalized per-label weight dictionary built by `prob_classify` on
a trained model. -/
def trainWeights (ex : List (FeatureSet × Label)) (ov : Overrides) (fs : FeatureSet) :
    List (Label × ℚ) :=
  (train ex).labels.map fun l => (l, labelWeight (train ex) ov (filterFS (train ex) fs) l)

theorem trainWeights_pos (ex : List (FeatureSet × Label)) (hex : ex ≠ [])
    (ov : Overrides) (fs : FeatureSet) : ∀ q ∈ trainWeights ex ov fs, 0 < q.2 := by
  intro q hq
  rw [trainWeights, List.mem_map] at hq
  obtain ⟨l, hl, rfl⟩ := hq
  exact labelWeight_train_pos ex hex ov fs l hl

theorem trainWeights_ne_nil (ex : List (FeatureSet × Label)) (hex : ex ≠ [])
    (ov : Overrides) (fs : FeatureSet) : trainWeights ex ov fs ≠ [] := by
  rw [trainWeights]
  simpa using labelsOf_ne_nil ex hex

theorem normalizeDict_of_pos (w : List (Label × ℚ)) (hne : w ≠ [])
    (hpos : ∀ q ∈ w, 0 < q.2) :
    normalizeDict w = some (w.map fun p => (p.1, p.2 / (w.map Prod.snd).sum))
    ∧ ((w.map fun p => (p.1, p.2 / (w.map Prod.snd).sum)).map Prod.fst) = w.map Prod.fst
    ∧ ((w.map fun p => (p.1, p.2 / (w.map Prod.snd).sum)).map Prod.snd).sum = 1
    ∧ ∀ p ∈ (w.map fun p => (p.1, p.2 / (w.map Prod.snd).sum)), 0 ≤ p.2 ∧ p.2 ≤ 1 := by
  have hsnd : ∀ x ∈ w.map Prod.snd, 0 < x := by
    intro x hx
    rw [List.mem_map] at hx
    obtain ⟨q, hq, rfl⟩ := hx
    exact hpos q hq
  have hmapne : w.map Prod.snd ≠ [] := by simpa using hne
  have hS : 0 < (w.map Prod.snd).sum := List.sum_pos _ hsnd hmapne
  have hSne : (w.map Prod.snd).sum ≠ 0 := ne_of_gt hS
  refine ⟨?_, ?_, ?_, ?_⟩
  · rw [normalizeDict, if_neg (by simpa [List.isEmpty_iff] using hne), if_neg hSne]
  · rw [List.map_map]; rfl
  · rw [List.map_map]
    have h1 : (Prod.snd ∘ fun p : Label × ℚ => (p.1, p.2 / (w.map Prod.snd).sum))
        = fun p : Label × ℚ => p.2 / (w.map Prod.snd).sum := rfl
    have h2 : w.map (fun p : Label × ℚ => p.2 / (w.map Prod.snd).sum)
        = (w.map Prod.snd).map (fun x => x / (w.map Prod.snd).sum) := by
      rw [List.map_map]; rfl
    rw [h1, h2, list_sum_div, div_self hSne]
  · intro p hp
    rw [List.mem_map] at hp
    obtain ⟨q, hq, rfl⟩ := hp
    refine ⟨le_of_lt (div_pos (hpos q hq) hS), ?_⟩
    rw [div_le_one hS]
    exact List.single_le_sum (fun x hx => le_of_lt (hsnd x hx)) _
      (List.mem_map.mpr ⟨q, hq, rfl⟩)

theorem prob_classify_train_eq (ex : List (FeatureSet × Label)) (hex : ex ≠ [])
    (ov : Overrides) (fs : FeatureSet) :
    prob_classify (train ex) ov fs =
      some ((trainWeights ex ov fs).map
        fun p => (p.1, p.2 / ((trainWeights ex ov fs).map Prod.snd).sum)) :=
  (normalizeDict_of_pos (trainWeights ex ov fs) (trainWeights_ne_nil ex hex ov fs)
    (trainWeights_pos ex hex ov fs)).1

/-! ### Override congruence lemmas -/

theorem featureFactor_eraseOverride (m : Model) (ov : Overrides) (l : Label) (f : Fname)
    (h : alookup f ov.is_frequent = none
      ∨ alookup (l, f) ov.frequent_probdist = none
      ∨ ∃ p, alookup (l, f) ov.frequent_probdist = some p ∧ p ≤ 0) :
    ∀ (l' : Label) (f' : Fname) (v : Fval),
      featureFactor m ov l' f' v = featureFactor m (eraseOverride ov l f) l' f' v := by
  intro l' f' v
  have hif : (eraseOverride ov l f).is_frequent = ov.is_frequent := rfl
  unfold featureFactor
  rw [hif]
  cases hfq : alookup f' ov.is_frequent with
  | none => rfl
  | some b =>
    cases b with
    | false => rfl
    | true =>
      have hl : alookup (l', f') (eraseOverride ov l f).frequent_probdist =
          if (l', f') = (l, f) then none else alookup (l', f') ov.frequent_probdist :=
        alookup_filter_ne _ _ _
      by_cases hk : (l', f') = (l, f)
      · rw [hl, if_pos hk]
        have hf' : f' = f := congrArg Prod.snd hk
        rcases h with h | h | ⟨p, hp, hple⟩
        · rw [hf', h] at hfq
          exact absurd hfq (by simp)
        · simp only [hk, h]
        · have h4 : ¬ (0 : ℚ) < p := not_lt.mpr hple
          simp only [hk, hp, h4, if_false]
      · rw [hl, if_neg hk]

theorem prob_classify_congr_ov (m : Model) (ov₁ ov₂ : Overrides)
    (h : ∀ l f v, featureFactor m ov₁ l f v = featureFactor m ov₂ l f v)
    (fs : FeatureSet) :
    prob_classify m ov₁ fs = prob_classify m ov₂ fs := by
  unfold prob_classify scoreFiltered
  congr 1
  apply List.map_congr_left
  intro l _
  have hw : labelWeight m ov₁ (filterFS m fs) l = labelWeight m ov₂ (filterFS m fs) l := by
    unfold labelWeight
    exact foldl_congrF _ _ (fun b p => by rw [h]) _ _
  rw [hw]

/-! ### Claims C1 to C4 -/

/-- C1: for every trained model (nonempty training corpus) and every nonempty
feature set, `prob_classify` (the operation `score_all`) returns a dictionary
that assigns each label of the model a probability in the interval from 0 to
1, and these probabilities sum to exactly 1 over the label set; the values
are obtained by normalizing the per-label scores by their total. -/
theorem C1_score_all_is_distribution (ex : List (FeatureSet × Label)) (hex : ex ≠ [])
    (ov : Overrides) (fs : FeatureSet) (_hfs : fs ≠ []) :
    ∃ d, prob_classify (train ex) ov fs = some d
      ∧ d.map Prod.fst = (train ex).labels
      ∧ (d.map Prod.snd).sum = 1
      ∧ ∀ p ∈ d, 0 ≤ p.2 ∧ p.2 ≤ 1 := by
  obtain ⟨h1, h2, h3, h4⟩ := normalizeDict_of_pos (trainWeights ex ov fs)
    (trainWeights_ne_nil ex hex ov fs) (trainWeights_pos ex hex ov fs)
  refine ⟨_, h1, ?_, h3, h4⟩
  rw [h2, trainWeights, List.map_map]
  exact List.map_id _

/-- Witness for C1 at the concrete corpus exA and the feature set with w
bound to buy. -/
theorem C1_score_all_is_distribution_w :
    ∃ d, prob_classify (train exA) ov0 [("w", "buy")] = some d
      ∧ d.map Prod.fst = (train exA).labels
      ∧ (d.map Prod.snd).sum = 1
      ∧ ∀ p ∈ d, 0 ≤ p.2 ∧ p.2 ≤ 1 :=
  C1_score_all_is_distribution exA (by decide) ov0 [("w", "buy")] (by decide)

/-- C2 counterexample: with the override probability 0 registered for the
frequent feature w under the label spam, scoring a feature set containing w
does not raise any validation error — it returns a distribution — and that
distribution is exactly the one computed with no override table at all: the
failure of `math.log(0, 2)` is swallowed by the blanket `except:` and the
code silently falls back to the models own estimate, which the claim says
must not happen. -/
theorem C2_zero_override_counterexample :
    (prob_classify (train exA) ovZero [("w", "buy")]).isSome = true
    ∧ prob_classify (train exA) ovZero [("w", "buy")] =
        prob_classify (train exA) (ovNone ovZero) [("w", "buy")] := by
  constructor
  · rw [prob_classify_train_eq exA (by decide) ovZero [("w", "buy")]]
    rfl
  · have h1 := prob_classify_congr_ov (train exA) ovZero (eraseOverride ovZero "spam" "w")
      (featureFactor_eraseOverride (train exA) ovZero "spam" "w"
        (Or.inr (Or.inr ⟨0, by decide, le_refl 0⟩))) [("w", "buy")]
    rw [h1]
    rfl

/-- C2 (amended): a registered override probability of 0 (or any non-positive
value) for a frequent feature does not raise a validation error; the
`math.log` failure is caught by the blanket exception handler and scoring
silently falls back to the models own conditional estimate for that
(label, feature) pair, exactly as if that override entry were absent. -/
theorem C2_amended_zero_override_silent_fallback (m : Model) (ov : Overrides)
    (l : Label) (f : Fname) (p : ℚ)
    (h1 : alookup f ov.is_frequent = some true)
    (h2 : alookup (l, f) ov.frequent_probdist = some p) (h3 : p ≤ 0) :
    (∀ v, featureFactor m ov l f v =
        if m.hasPD l f then m.condProb l f (some v) else 0)
    ∧ ∀ fs, prob_classify m ov fs = prob_classify m (eraseOverride ov l f) fs := by
  constructor
  · intro v
    have h4 : ¬ (0 : ℚ) < p := not_lt.mpr h3
    unfold featureFactor
    simp only [h1, h2, h4, if_false]
  · intro fs
    exact prob_classify_congr_ov m ov (eraseOverride ov l f)
      (featureFactor_eraseOverride m ov l f (Or.inr (Or.inr ⟨p, h2, h3⟩))) fs

/-- Witness for the amended C2 at the concrete trained model and the zero
override for (spam, w). -/
theorem C2_amended_zero_override_silent_fallback_w :
    (featureFactor (train exA) ovZero "spam" "w" "buy" =
      if (train exA).hasPD "spam" "w" then (train exA).condProb "spam" "w" (some "buy") else 0)
    ∧ prob_classify (train exA) ovZero [("w", "buy")] =
        prob_classify (train exA) (eraseOverride ovZero "spam" "w") [("w", "buy")] :=
  ⟨(C2_amended_zero_override_silent_fallback (train exA) ovZero "spam" "w" 0
      (by decide) (by decide) (le_refl 0)).1 "buy",
   (C2_amended_zero_override_silent_fallback (train exA) ovZero "spam" "w" 0
      (by decide) (by decide) (le_refl 0)).2 [("w", "buy")]⟩

/-- C3: when the frequency-override lookup for a (label, feature) pair fails
— the is-frequent entry for the name is missing, or the name is flagged
frequent but the override table has no entry for the pair — the scoring
operation uses the models own conditional estimate for that pair (first
conjunct) and the whole returned distribution is the one that would be
computed with no override at all for that pair (second conjunct); the failure
is never propagated: scoring is a total function of the inputs. -/
theorem C3_override_lookup_failure_falls_back (m : Model) (ov : Overrides)
    (l : Label) (f : Fname)
    (hfail : alookup f ov.is_frequent = none
      ∨ (alookup f ov.is_frequent = some true
          ∧ alookup (l, f) ov.frequent_probdist = none)) :
    (∀ v, featureFactor m ov l f v =
        if m.hasPD l f then m.condProb l f (some v) else 0)
    ∧ ∀ fs, prob_classify m ov fs = prob_classify m (eraseOverride ov l f) fs := by
  constructor
  · intro v
    unfold featureFactor
    rcases hfail with h | ⟨h1, h2⟩
    · simp only [h]
    · simp only [h1, h2]
  · intro fs
    apply prob_classify_congr_ov
    intro l' f' v
    apply featureFactor_eraseOverride
    rcases hfail with h | ⟨h1, h2⟩
    · exact Or.inl h
    · exact Or.inr (Or.inl h2)

/-- Witness for C3 at the concrete trained model, with w flagged frequent but
the override table empty. -/
theorem C3_override_lookup_failure_falls_back_w :
    (featureFactor (train exA) ovMissing "spam" "w" "buy" =
      if (train exA).hasPD "spam" "w" then (train exA).condProb "spam" "w" (some "buy") else 0)
    ∧ prob_classify (train exA) ovMissing [("w", "buy")] =
        prob_classify (train exA) (eraseOverride ovMissing "spam" "w") [("w", "buy")] :=
  ⟨(C3_override_lookup_failure_falls_back (train exA) ovMissing "spam" "w"
      (Or.inr ⟨by decide, by decide⟩)).1 "buy",
   (C3_override_lookup_failure_falls_back (train exA) ovMissing "spam" "w"
      (Or.inr ⟨by decide, by decide⟩)).2 [("w", "buy")]⟩

/-- C4: a feature name for which no label has an entry in the conditional
distribution table is ignored entirely: extending any feature set with any
value for such a name leaves the result of `prob_classify` unchanged. -/
theorem C4_unseen_feature_ignored (m : Model) (ov : Overrides) (u : Fname)
    (h : ∀ p ∈ m.pdKeys, p.2 ≠ u) (v : Fval) (fs : FeatureSet) :
    prob_classify m ov (fs ++ [(u, v)]) = prob_classify m ov fs := by
  have hk : keepFname m u = false := by
    rw [keepFname, List.any_eq_false]
    intro l _
    have hnm : (l, u) ∉ m.pdKeys := fun hmem => h (l, u) hmem rfl
    simpa [Model.hasPD] using hnm
  unfold prob_classify filterFS
  rw [List.filter_append]
  simp [hk]

/-- Witness for C4: the name unknown token never occurs in the corpus exA, and
scoring the singleton feature set equals scoring the empty one. -/
theorem C4_unseen_feature_ignored_w :
    prob_classify (train exA) ov0 ([] ++ [("unknown_token", "x")]) =
      prob_classify (train exA) ov0 [] :=
  C4_unseen_feature_ignored (train exA) ov0 "unknown_token" (by decide) "x" []

/-! ### Claims C6, C7, C9, C10 -/

/-- C6: on a model whose label set is empty (in particular the model obtained
from an empty training sequence), `classify` fails — the normalization of the
empty score dictionary raises the nltk ValueError, modelled by `none` —
rather than returning some arbitrary label; moreover training itself on the
empty sequence already fails in the prior estimator (`trainChecked`). -/
theorem C6_untrained_classify_fails (m : Model) (ov : Overrides) (fs : FeatureSet)
    (h : m.labels = []) :
    classify m ov fs = none ∧ trainChecked [] = none := by
  constructor
  · simp [classify, prob_classify, scoreFiltered, normalizeDict, h]
  · rfl

/-- Witness for C6 at the model trained on the empty sequence. -/
theorem C6_untrained_classify_fails_w :
    classify (train []) ov0 [("w", "buy")] = none ∧ trainChecked [] = none :=
  C6_untrained_classify_fails (train []) ov0 [("w", "buy")] rfl

/-- C7: in training, every conditional distribution for a (label, feature)
pair is fitted with the same sample-space size for a fixed feature name,
namely the number of distinct values the feature takes across all labels plus
one for the reserved UNSET value exactly when the imputation loop added it;
the distinct-value list is duplicate-free and contains exactly the values the
feature takes somewhere in the corpus, and UNSET is added exactly when some
seen label carries fewer recorded values for the feature than it has
examples. -/
theorem C7_smoothing_bins_shared_across_labels (ex : List (FeatureSet × Label))
    (l₁ l₂ : Label) (f : Fname) :
    (train ex).condBins l₁ f = (train ex).condBins l₂ f
    ∧ (train ex).condBins l₁ f =
        (rawValues ex f).length + (if noneAdded ex f then 1 else 0)
    ∧ (rawValues ex f).Nodup
    ∧ (∀ v, v ∈ rawValues ex f ↔ (f, v) ∈ allItems ex)
    ∧ (noneAdded ex f = true ↔ ∃ l ∈ labelsOf ex, rawTotal ex l f < labelN ex l) := by
  refine ⟨rfl, rfl, nodup_firstOccs _, ?_, ?_⟩
  · intro v
    rw [rawValues, mem_firstOccs]
    simp only [List.mem_map, List.mem_filter]
    constructor
    · rintro ⟨p, ⟨hp, hpf⟩, hpv⟩
      have hpe : p = (f, v) := by
        rcases p with ⟨p1, p2⟩
        simp only [decide_eq_true_eq] at hpf
        simp only at hpv
        simp [hpf, hpv]
      exact hpe ▸ hp
    · intro hmem
      exact ⟨(f, v), ⟨hmem, by simp⟩, rfl⟩
  · rw [noneAdded, List.any_eq_true]
    simp

/-- C9: the override probability `normal_probability` computes is the same
function of the data for the ham branch as for the spam branch — both store
`count_fname[fname] / (count_frequent + len(spam_frequent))` — so the whole
construction coincides, on every input, with the label-blind version that
performs no label test at all (in particular the ham branch also divides by
the size of the spam-frequent set). -/
theorem C9_override_spam_ham_branches_identical (is_frequent : List (Fname × Bool))
    (spam_frequent : List Fname) (train_set : List (FeatureSet × Label)) :
    normal_probability is_frequent spam_frequent train_set =
      normalProbabilityUniform is_frequent spam_frequent train_set := by
  unfold normal_probability normalProbabilityUniform
  apply foldl_congrF
  intro fpd e
  apply foldl_congrF
  intro fpd p
  cases alookup p.1 is_frequent with
  | none => rfl
  | some b =>
    cases b with
    | false => rfl
    | true =>
      show (if e.2 = "spam" then _ else _) = _
      by_cases h : e.2 = "spam"
      · rw [if_pos h]
      · rw [if_neg h]

/-- The first component of the explicit-heap deletion loop is the callers
dict, untouched. -/
theorem delLoop_fst (m : Model) :
    ∀ (ks : List Fname) (c d : FeatureSet), (delLoop m (c, d) ks).1 = c := by
  intro ks
  induction ks with
  | nil => intro c d; rfl
  | cons f rest ih =>
    intro c d
    show (if keepFname m f then delLoop m (c, d) rest
      else delLoop m (c, dictDel d f) rest).1 = c
    by_cases h : keepFname m f
    · rw [if_pos h]; exact ih c d
    · rw [if_neg h]; exact ih c (dictDel d f)

/-- The second component of the deletion loop: after processing the key list,
an item survives iff its name is kept or never appeared in the key list. -/
theorem delLoop_snd (m : Model) :
    ∀ (ks : List Fname) (c d : FeatureSet),
      (delLoop m (c, d) ks).2 =
        d.filter fun p => keepFname m p.1 || decide (p.1 ∉ ks) := by
  intro ks
  induction ks with
  | nil =>
    intro c d
    show d = d.filter fun p => keepFname m p.1 || decide (p.1 ∉ ([] : List Fname))
    exact (List.filter_eq_self.mpr fun p _ => by simp).symm
  | cons f rest ih =>
    intro c d
    show (if keepFname m f then delLoop m (c, d) rest
      else delLoop m (c, dictDel d f) rest).2 = _
    by_cases h : keepFname m f
    · rw [if_pos h, ih]
      apply List.filter_congr
      intro p _
      by_cases hk : keepFname m p.1
      · simp [hk]
      · have hpf : p.1 ≠ f := fun he => by rw [he] at hk; exact hk h
        simp [hk, List.mem_cons, hpf]
    · rw [if_neg h, ih]
      rw [dictDel, List.filter_filter]
      apply List.filter_congr
      intro p _
      have hf : keepFname m f = false := Bool.eq_false_iff.mpr h
      by_cases hk : keepFname m p.1
      · have hpf : p.1 ≠ f := fun he => by rw [he] at hk; exact h hk
        simp [hk, hpf, List.mem_cons]
      · by_cases hpf : p.1 = f <;> simp [hk, hpf, hf, List.mem_cons]

/-- C10: `prob_classify` leaves the callers feature-set dict unchanged — the
deletion of unseen feature names happens on the copy made by
`featureset.copy()`, never on the argument object — and the returned
distribution is the one computed from the filtered copy, i.e. exactly
`prob_classify` of the original mapping. -/
theorem C10_caller_featureset_unchanged (m : Model) (ov : Overrides)
    (caller : FeatureSet) :
    (prob_classify_frame m ov caller).1 = caller
    ∧ (prob_classify_frame m ov caller).2 = prob_classify m ov caller := by
  constructor
  · exact delLoop_fst m (caller.map Prod.fst) caller caller
  · show scoreFiltered m ov (delLoop m (caller, caller) (caller.map Prod.fst)).2 =
      scoreFiltered m ov (filterFS m caller)
    rw [delLoop_snd m (caller.map Prod.fst) caller caller]
    congr 1
    unfold filterFS
    apply List.filter_congr
    intro p hp
    have : p.1 ∈ caller.map Prod.fst := List.mem_map.mpr ⟨p, hp, rfl⟩
    simp [this]

/-! ### The loop state of most informative features -/

theorem mem_setAdd (l : List Feat) (x y : Feat) :
    x ∈ setAdd l y ↔ x ∈ l ∨ x = y := by
  unfold setAdd
  by_cases h : y ∈ l
  · simp only [h, if_true]
    constructor
    · exact Or.inl
    · rintro (hx | rfl)
      · exact hx
      · exact h
  · simp [h, List.mem_append]

theorem mem_setDiscard (l : List Feat) (x y : Feat) :
    x ∈ setDiscard l y ↔ x ∈ l ∧ x ≠ y := by
  simp [setDiscard, List.mem_filter]

theorem fupd_self (g : Feat → ℚ) (x : Feat) (v : ℚ) : fupd g x v x = v :=
  if_pos rfl

theorem fupd_other (g : Feat → ℚ) (x : Feat) (v : ℚ) (y : Feat) (h : y ≠ x) :
    fupd g x v y = g y :=
  if_neg h

theorem mifStep_minprob (s : MIFState) (e : Feat × ℚ) :
    (mifStep s e).minprob = fupd s.minprob e.1 (min e.2 (s.minprob e.1)) := rfl

theorem mifStep_maxprob (s : MIFState) (e : Feat × ℚ) :
    (mifStep s e).maxprob = fupd s.maxprob e.1 (max e.2 (s.maxprob e.1)) := rfl

theorem mifStep_minprob_self (s : MIFState) (e : Feat × ℚ) :
    (mifStep s e).minprob e.1 = min e.2 (s.minprob e.1) := by
  rw [mifStep_minprob]; exact fupd_self _ _ _

theorem mifStep_features (s : MIFState) (e : Feat × ℚ) :
    (mifStep s e).features =
      if (mifStep s e).minprob e.1 = 0 then setDiscard (setAdd s.features e.1) e.1
      else setAdd s.features e.1 := rfl

theorem mif_foldl_maxprob (ft : Feat) :
    ∀ (E : List (Feat × ℚ)) (s : MIFState),
      (E.foldl mifStep s).maxprob ft =
        ((E.filter fun e => e.1 = ft).map fun e => e.2).foldl
          (fun a p => max p a) (s.maxprob ft) := by
  intro E
  induction E with
  | nil => intro s; rfl
  | cons e E ih =>
    intro s
    rw [List.foldl_cons, ih (mifStep s e)]
    by_cases h : e.1 = ft
    · rw [List.filter_cons_of_pos (by simpa using h), List.map_cons, List.foldl_cons]
      have h1 : (mifStep s e).maxprob ft = max e.2 (s.maxprob ft) := by
        rw [mifStep_maxprob, ← h]
        exact fupd_self _ _ _
      rw [h1]
    · rw [List.filter_cons_of_neg (by simpa using h)]
      have h1 : (mifStep s e).maxprob ft = s.maxprob ft := by
        rw [mifStep_maxprob]
        exact fupd_other _ _ _ _ fun he => h he.symm
      rw [h1]

theorem mif_foldl_minprob (ft : Feat) :
    ∀ (E : List (Feat × ℚ)) (s : MIFState),
      (E.foldl mifStep s).minprob ft =
        ((E.filter fun e => e.1 = ft).map fun e => e.2).foldl
          (fun a p => min p a) (s.minprob ft) := by
  intro E
  induction E with
  | nil => intro s; rfl
  | cons e E ih =>
    intro s
    rw [List.foldl_cons, ih (mifStep s e)]
    by_cases h : e.1 = ft
    · rw [List.filter_cons_of_pos (by simpa using h), List.map_cons, List.foldl_cons]
      have h1 : (mifStep s e).minprob ft = min e.2 (s.minprob ft) := by
        rw [mifStep_minprob, ← h]
        exact fupd_self _ _ _
      rw [h1]
    · rw [List.filter_cons_of_neg (by simpa using h)]
      have h1 : (mifStep s e).minprob ft = s.minprob ft := by
        rw [mifStep_minprob]
        exact fupd_other _ _ _ _ fun he => h he.symm
      rw [h1]

theorem mif_foldl_nodup :
    ∀ (E : List (Feat × ℚ)) (s : MIFState), s.features.Nodup →
      (E.foldl mifStep s).features.Nodup := by
  intro E
  induction E with
  | nil => exact fun s h => h
  | cons e E ih =>
    intro s hs
    rw [List.foldl_cons]
    apply ih
    rw [mifStep_features]
    have hadd : (setAdd s.features e.1).Nodup := by
      unfold setAdd
      by_cases h : e.1 ∈ s.features
      · simpa [h] using hs
      · simp only [h, if_false]
        refine List.Nodup.append hs (List.nodup_singleton _) ?_
        intro b hb hb1
        rw [List.mem_singleton] at hb1
        subst hb1
        exact h hb
    by_cases h0 : (mifStep s e).minprob e.1 = 0
    · rw [if_pos h0]
      exact List.Nodup.filter _ hadd
    · rw [if_neg h0]
      exact hadd

theorem mif_foldl_mem (ft : Feat) :
    ∀ E : List (Feat × ℚ),
      ft ∈ (E.foldl mifStep ⟨[], fun _ => 0, fun _ => 1⟩).features ↔
        ft ∈ E.map Prod.fst ∧ (E.foldl mifStep ⟨[], fun _ => 0, fun _ => 1⟩).minprob ft ≠ 0 := by
  intro E
  induction E using List.reverseRecOn with
  | nil => simp
  | append_singleton E e ih =>
    rw [List.foldl_append, List.foldl_cons, List.foldl_nil]
    by_cases h : e.1 = ft
    · subst h
      rw [mifStep_features, mifStep_minprob_self]
      by_cases h0 : min e.2 ((E.foldl mifStep ⟨[], fun _ => 0, fun _ => 1⟩).minprob e.1) = 0
      · rw [if_pos h0]
        simp [mem_setDiscard, h0]
      · rw [if_neg h0]
        simp [mem_setAdd, h0, List.map_append]
    · have hne : ft ≠ e.1 := fun he => h he.symm
      have hmn : (mifStep (E.foldl mifStep ⟨[], fun _ => 0, fun _ => 1⟩) e).minprob ft =
          (E.foldl mifStep ⟨[], fun _ => 0, fun _ => 1⟩).minprob ft := by
        rw [mifStep_minprob]
        exact fupd_other _ _ _ _ hne
      rw [mifStep_features, hmn]
      by_cases h0 : (mifStep (E.foldl mifStep ⟨[], fun _ => 0, fun _ => 1⟩) e).minprob e.1 = 0
      · rw [if_pos h0]
        simp [mem_setDiscard, mem_setAdd, hne, ih, List.map_append]
      · rw [if_neg h0]
        simp [mem_setAdd, hne, ih, List.map_append]

/-! ### Fold bounds for the running minimum and maximum -/

theorem foldl_max_init_le :
    ∀ (P : List ℚ) (a b : ℚ), a ≤ b →
      P.foldl (fun a p => max p a) a ≤ P.foldl (fun a p => max p a) b := by
  intro P
  induction P with
  | nil => exact fun a b h => h
  | cons p P ih =>
    intro a b h
    exact ih _ _ (max_le_max le_rfl h)

theorem le_foldl_max :
    ∀ (P : List ℚ) (a : ℚ), a ≤ P.foldl (fun a p => max p a) a := by
  intro P
  induction P with
  | nil => exact fun a => le_rfl
  | cons p P ih =>
    intro a
    exact le_trans (le_max_right p a) (ih (max p a))

theorem mem_le_foldl_max :
    ∀ (P : List ℚ) (a x : ℚ), x ∈ P → x ≤ P.foldl (fun a p => max p a) a := by
  intro P
  induction P with
  | nil => intro a x hx; exact absurd hx (List.not_mem_nil x)
  | cons p P ih =>
    intro a x hx
    rw [List.foldl_cons]
    rcases List.mem_cons.mp hx with rfl | hx
    · exact le_trans (le_max_left x a) (le_foldl_max P (max x a))
    · exact ih _ x hx

theorem foldl_min_init_le :
    ∀ (P : List ℚ) (a b : ℚ), a ≤ b →
      P.foldl (fun a p => min p a) a ≤ P.foldl (fun a p => min p a) b := by
  intro P
  induction P with
  | nil => exact fun a b h => h
  | cons p P ih =>
    intro a b h
    exact ih _ _ (min_le_min le_rfl h)

theorem foldl_min_le :
    ∀ (P : List ℚ) (a : ℚ), P.foldl (fun a p => min p a) a ≤ a := by
  intro P
  induction P with
  | nil => exact fun a => le_rfl
  | cons p P ih =>
    intro a
    exact le_trans (ih (min p a)) (min_le_right p a)

theorem foldl_min_le_mem :
    ∀ (P : List ℚ) (a x : ℚ), x ∈ P → P.foldl (fun a p => min p a) a ≤ x := by
  intro P
  induction P with
  | nil => intro a x hx; exact absurd hx (List.not_mem_nil x)
  | cons p P ih =>
    intro a x hx
    rw [List.foldl_cons]
    rcases List.mem_cons.mp hx with rfl | hx
    · exact le_trans (foldl_min_le P (min x a)) (min_le_left x a)
    · exact ih _ x hx

theorem foldl_min_nonneg :
    ∀ (P : List ℚ) (a : ℚ), 0 ≤ a → (∀ x ∈ P, 0 ≤ x) →
      0 ≤ P.foldl (fun a p => min p a) a := by
  intro P
  induction P with
  | nil => exact fun a h _ => h
  | cons p P ih =>
    intro a ha hP
    rw [List.foldl_cons]
    exact ih _ (le_min (hP p (List.mem_cons_self p P)) ha)
      fun x hx => hP x (List.mem_cons_of_mem p hx)

/-! ### The final state of the feature-importance loop -/

/-- The probabilities under which a feature is encountered during the loop of
`most_informative_features`. -/
def mifProbs (m : Model) (ft : Feat) : List ℚ :=
  ((encounters m).filter fun e => e.1 = ft).map fun e => e.2

theorem mifFinal_maxprob (m : Model) (ft : Feat) :
    (mifFinal m).maxprob ft = (mifProbs m ft).foldl (fun a p => max p a) 0 :=
  mif_foldl_maxprob ft (encounters m) _

theorem mifFinal_minprob (m : Model) (ft : Feat) :
    (mifFinal m).minprob ft = (mifProbs m ft).foldl (fun a p => min p a) 1 :=
  mif_foldl_minprob ft (encounters m) _

theorem mifFinal_mem (m : Model) (ft : Feat) :
    ft ∈ (mifFinal m).features ↔
      ft ∈ (encounters m).map Prod.fst ∧ (mifFinal m).minprob ft ≠ 0 :=
  mif_foldl_mem ft (encounters m)

theorem encounters_snd_nonneg (m : Model) : ∀ e ∈ encounters m, 0 ≤ e.2 := by
  intro e he
  rw [encounters, List.mem_flatMap] at he
  obtain ⟨lf, _, he⟩ := he
  rw [List.mem_map] at he
  obtain ⟨v, _, rfl⟩ := he
  exact eleProb_nonneg _ _ _

theorem mifProbs_nonneg (m : Model) (ft : Feat) : ∀ x ∈ mifProbs m ft, 0 ≤ x := by
  intro x hx
  rw [mifProbs, List.mem_map] at hx
  obtain ⟨e, he, rfl⟩ := hx
  exact encounters_snd_nonneg m e (List.mem_of_mem_filter he)

theorem mifFinal_minprob_nonneg (m : Model) (ft : Feat) :
    0 ≤ (mifFinal m).minprob ft := by
  rw [mifFinal_minprob]
  exact foldl_min_nonneg _ _ (by norm_num) (mifProbs_nonneg m ft)

theorem mifFinal_minprob_le_maxprob (m : Model) (ft : Feat)
    (h : ft ∈ (encounters m).map Prod.fst) :
    (mifFinal m).minprob ft ≤ (mifFinal m).maxprob ft := by
  rw [List.mem_map] at h
  obtain ⟨e, he, hfst⟩ := h
  have hx : e.2 ∈ mifProbs m ft := by
    rw [mifProbs, List.mem_map]
    exact ⟨e, List.mem_filter.mpr ⟨he, by simp [hfst]⟩, rfl⟩
  rw [mifFinal_minprob, mifFinal_maxprob]
  exact le_trans (foldl_min_le_mem _ _ _ hx) (mem_le_foldl_max _ _ _ hx)

theorem ratio_flip (na ma nb mb : ℚ) (h : na / ma ≤ nb / mb)
    (hna : 0 < na) (hnama : na ≤ ma) (hnb : 0 < nb) (hnbmb : nb ≤ mb) :
    mb / nb ≤ ma / na := by
  have hma0 : 0 < ma := lt_of_lt_of_le hna hnama
  have hmb0 : 0 < mb := lt_of_lt_of_le hnb hnbmb
  rw [div_le_div_iff₀ hma0 hmb0] at h
  rw [div_le_div_iff₀ hnb hna]
  nlinarith

/-- C8: `most_informative_features n` returns at most n feature pairs, in an
order that is descending in the informativeness ratio (the running maximum of
the per-label probabilities of the pair divided by the running minimum), and
every pair whose minimum probability is exactly 0 is excluded from the
returned sequence. -/
theorem C8_most_informative_features_spec (m : Model) (n : ℕ) :
    (most_informative_features m n).length ≤ n
    ∧ List.Pairwise
        (fun a b => (mifFinal m).maxprob b / (mifFinal m).minprob b ≤
          (mifFinal m).maxprob a / (mifFinal m).minprob a)
        (most_informative_features m n)
    ∧ ∀ ft, (mifFinal m).minprob ft = 0 → ft ∉ most_informative_features m n := by
  have hmem_out : ∀ ft ∈ most_informative_features m n, ft ∈ (mifFinal m).features := by
    intro ft hft
    unfold most_informative_features at hft
    have h1 := List.take_subset _ _ hft
    rw [List.mem_mergeSort, List.mem_mergeSort] at h1
    exact h1
  have hmem_facts : ∀ ft ∈ (mifFinal m).features,
      0 < (mifFinal m).minprob ft ∧ (mifFinal m).minprob ft ≤ (mifFinal m).maxprob ft := by
    intro ft hft
    obtain ⟨henc, hne⟩ := (mifFinal_mem m ft).mp hft
    exact ⟨lt_of_le_of_ne (mifFinal_minprob_nonneg m ft) (Ne.symm hne),
      mifFinal_minprob_le_maxprob m ft henc⟩
  refine ⟨?_, ?_, ?_⟩
  · unfold most_informative_features
    exact List.length_take_le _ _
  · have htrans : ∀ (a b c : Feat), mifLE (mifFinal m) a b → mifLE (mifFinal m) b c →
        mifLE (mifFinal m) a c := by
      intro a b c hab hbc
      simp only [mifLE, decide_eq_true_eq] at hab hbc ⊢
      exact le_trans hab hbc
    have htotal : ∀ (a b : Feat),
        mifLE (mifFinal m) a b || mifLE (mifFinal m) b a := by
      intro a b
      simp only [mifLE, Bool.or_eq_true, decide_eq_true_eq]
      exact le_total _ _
    have hsorted := List.sorted_mergeSort htrans htotal
      ((mifFinal m).features.mergeSort featLE)
    have htake := List.Pairwise.sublist
      (List.take_sublist n (((mifFinal m).features.mergeSort featLE).mergeSort
        (mifLE (mifFinal m)))) hsorted
    refine List.Pairwise.imp_of_mem ?_ htake
    intro a b ha hb hab
    obtain ⟨hpa, hma⟩ := hmem_facts a (hmem_out a ha)
    obtain ⟨hpb, hmb⟩ := hmem_facts b (hmem_out b hb)
    simp only [mifLE, decide_eq_true_eq] at hab
    exact ratio_flip _ _ _ _ hab hpa hma hpb hmb
  · intro ft h0 hmem
    obtain ⟨hpos, -⟩ := hmem_facts ft (hmem_out ft hmem)
    rw [h0] at hpos
    exact lt_irrefl 0 hpos

/-! ### The canonical feature order and the lexicographic maximum -/

theorem featKey_inj {a b : Feat} (h : featKey a = featKey b) : a = b := by
  rcases a with ⟨a1, a2⟩
  rcases b with ⟨b1, b2⟩
  unfold featKey at h
  have h' := congrArg ofLex h
  have h1 := congrArg Prod.fst h'
  have h2 := congrArg Prod.snd h'
  simp only [ofLex_toLex] at h1 h2
  cases a2 <;> cases b2 <;> simp_all

theorem featLE_trans (a b c : Feat) : featLE a b → featLE b c → featLE a c := by
  simp only [featLE, decide_eq_true_eq]
  exact le_trans

theorem featLE_total (a b : Feat) : featLE a b || featLE b a := by
  simp only [featLE, Bool.or_eq_true, decide_eq_true_eq]
  exact le_total _ _

theorem featLE_antisymm {a b : Feat} (h1 : featLE a b = true) (h2 : featLE b a = true) :
    a = b := by
  simp only [featLE, decide_eq_true_eq] at h1 h2
  exact featKey_inj (le_antisymm h1 h2)

/-- The lexicographic key used by the Python `max` over `(p, v)` tuples. -/
def pairKey (p : Label × ℚ) : Lex (ℚ × String) :=
  toLex (p.2, p.1)

theorem pairKey_inj {a b : Label × ℚ} (h : pairKey a = pairKey b) : a = b := by
  rcases a with ⟨a1, a2⟩
  rcases b with ⟨b1, b2⟩
  unfold pairKey at h
  have h' := congrArg ofLex h
  have h1 := congrArg Prod.fst h'
  have h2 := congrArg Prod.snd h'
  simp only [ofLex_toLex] at h1 h2
  exact Prod.ext h2 h1

theorem pairKey_pairMax (a b : Label × ℚ) :
    pairKey (pairMax a b) = max (pairKey a) (pairKey b) := by
  unfold pairMax
  have hlt : (a.2 < b.2 ∨ (a.2 = b.2 ∧ a.1 < b.1)) ↔ pairKey a < pairKey b := by
    rw [pairKey, pairKey, Prod.Lex.lt_iff]
  by_cases h : a.2 < b.2 ∨ (a.2 = b.2 ∧ a.1 < b.1)
  · rw [if_pos h, max_def_lt, if_pos (hlt.mp h)]
  · rw [if_neg h, max_def_lt, if_neg (fun hl => h (hlt.mpr hl))]

theorem pairMax_comm (a b : Label × ℚ) : pairMax a b = pairMax b a :=
  pairKey_inj (by rw [pairKey_pairMax, pairKey_pairMax, max_comm])

theorem pairMax_right_comm (c x y : Label × ℚ) :
    pairMax (pairMax c x) y = pairMax (pairMax c y) x :=
  pairKey_inj (by
    rw [pairKey_pairMax, pairKey_pairMax, pairKey_pairMax, pairKey_pairMax,
      max_assoc, max_comm (pairKey x) (pairKey y), ← max_assoc])

/-- One step of the Python `max` over an optional running best. -/
def optMax (acc : Option (Label × ℚ)) (p : Label × ℚ) : Option (Label × ℚ) :=
  match acc with
  | none => some p
  | some b => some (pairMax b p)

theorem optMax_right_comm (z : Option (Label × ℚ)) (x y : Label × ℚ) :
    optMax (optMax z x) y = optMax (optMax z y) x := by
  cases z with
  | none => simp [optMax, pairMax_comm]
  | some c => simp [optMax, pairMax_right_comm]

theorem foldl_optMax_some :
    ∀ (xs : List (Label × ℚ)) (b : Label × ℚ),
      xs.foldl optMax (some b) = some (xs.foldl pairMax b) := by
  intro xs
  induction xs with
  | nil => intro b; rfl
  | cons x xs ih =>
    intro b
    rw [List.foldl_cons, List.foldl_cons]
    exact ih (pairMax b x)

theorem dictMax_eq_optMax (l : List (Label × ℚ)) :
    dictMax l = (l.foldl optMax none).map Prod.fst := by
  cases l with
  | nil => rfl
  | cons x xs =>
    rw [dictMax, List.foldl_cons]
    show _ = (xs.foldl optMax (some x)).map Prod.fst
    rw [foldl_optMax_some]
    rfl

theorem dictMax_perm (l₁ l₂ : List (Label × ℚ)) (h : List.Perm l₁ l₂) :
    dictMax l₁ = dictMax l₂ := by
  rw [dictMax_eq_optMax, dictMax_eq_optMax]
  congr 1
  exact h.foldl_eq' (fun x _ y _ z => optMax_right_comm z x y) none

/-! ### Permutation invariance of training -/

section PermInvariance

variable {ex₁ ex₂ : List (FeatureSet × Label)}

theorem train_labels (ex : List (FeatureSet × Label)) :
    (train ex).labels = labelsOf ex := rfl

theorem perm_labelN (h : List.Perm ex₁ ex₂) (l : Label) :
    labelN ex₁ l = labelN ex₂ l :=
  (h.map Prod.snd).count_eq l

theorem perm_labelsOf (h : List.Perm ex₁ ex₂) :
    List.Perm (labelsOf ex₁) (labelsOf ex₂) :=
  (List.perm_ext_iff_of_nodup (nodup_firstOccs _) (nodup_firstOccs _)).mpr fun a => by
    rw [mem_firstOccs, mem_firstOccs]
    exact (h.map Prod.snd).mem_iff

theorem perm_itemsOfLabel (h : List.Perm ex₁ ex₂) (l : Label) :
    List.Perm (itemsOfLabel ex₁ l) (itemsOfLabel ex₂ l) :=
  List.Perm.flatMap_right Prod.fst (h.filter _)

theorem perm_allItems (h : List.Perm ex₁ ex₂) :
    List.Perm (allItems ex₁) (allItems ex₂) :=
  List.Perm.flatMap_right Prod.fst h

theorem perm_fnamesOf (h : List.Perm ex₁ ex₂) :
    List.Perm (fnamesOf ex₁) (fnamesOf ex₂) :=
  (List.perm_ext_iff_of_nodup (nodup_firstOccs _) (nodup_firstOccs _)).mpr fun a => by
    rw [mem_firstOccs, mem_firstOccs]
    exact ((perm_allItems h).map Prod.fst).mem_iff

theorem eq_rawCount (h : List.Perm ex₁ ex₂) (l : Label) (f : Fname) (v : Fval) :
    rawCount ex₁ l f v = rawCount ex₂ l f v := by
  unfold rawCount List.count
  exact List.Perm.countP_eq _ (perm_itemsOfLabel h l)

theorem eq_rawTotal (h : List.Perm ex₁ ex₂) (l : Label) (f : Fname) :
    rawTotal ex₁ l f = rawTotal ex₂ l f := by
  unfold rawTotal
  exact List.Perm.countP_eq _ (perm_itemsOfLabel h l)

theorem eq_missingN (h : List.Perm ex₁ ex₂) (l : Label) (f : Fname) :
    missingN ex₁ l f = missingN ex₂ l f := by
  rw [missingN, missingN, perm_labelN h, eq_rawTotal h]

theorem perm_rawValuesFor (h : List.Perm ex₁ ex₂) (l : Label) (f : Fname) :
    List.Perm (rawValuesFor ex₁ l f) (rawValuesFor ex₂ l f) :=
  (List.perm_ext_iff_of_nodup (nodup_firstOccs _) (nodup_firstOccs _)).mpr fun a => by
    rw [mem_firstOccs, mem_firstOccs]
    exact (((perm_itemsOfLabel h l).filter _).map Prod.snd).mem_iff

theorem perm_rawValues (h : List.Perm ex₁ ex₂) (f : Fname) :
    List.Perm (rawValues ex₁ f) (rawValues ex₂ f) :=
  (List.perm_ext_iff_of_nodup (nodup_firstOccs _) (nodup_firstOccs _)).mpr fun a => by
    rw [mem_firstOccs, mem_firstOccs]
    exact (((perm_allItems h).filter _).map Prod.snd).mem_iff

theorem eq_noneAdded (h : List.Perm ex₁ ex₂) (f : Fname) :
    noneAdded ex₁ f = noneAdded ex₂ f := by
  apply Bool.coe_iff_coe.mp
  unfold noneAdded
  rw [List.any_eq_true, List.any_eq_true]
  constructor
  · rintro ⟨l, hl, hlt⟩
    refine ⟨l, (perm_labelsOf h).mem_iff.mp hl, ?_⟩
    rw [← eq_rawTotal h, ← perm_labelN h]
    exact hlt
  · rintro ⟨l, hl, hlt⟩
    refine ⟨l, (perm_labelsOf h).mem_iff.mpr hl, ?_⟩
    rw [eq_rawTotal h, perm_labelN h]
    exact hlt

theorem eq_globalBins (h : List.Perm ex₁ ex₂) (f : Fname) :
    globalBins ex₁ f = globalBins ex₂ f := by
  rw [globalBins, globalBins, (perm_rawValues h f).length_eq, eq_noneAdded h]

theorem eq_condProb (h : List.Perm ex₁ ex₂) (l : Label) (f : Fname) (v : Option Fval) :
    (train ex₁).condProb l f v = (train ex₂).condProb l f v := by
  cases v with
  | some w =>
    show eleProb (rawCount ex₁ l f w) (rawTotal ex₁ l f + missingN ex₁ l f)
        (globalBins ex₁ f) =
      eleProb (rawCount ex₂ l f w) (rawTotal ex₂ l f + missingN ex₂ l f)
        (globalBins ex₂ f)
    rw [eq_rawCount h, eq_rawTotal h, eq_missingN h, eq_globalBins h]
  | none =>
    show eleProb (missingN ex₁ l f) (rawTotal ex₁ l f + missingN ex₁ l f)
        (globalBins ex₁ f) =
      eleProb (missingN ex₂ l f) (rawTotal ex₂ l f + missingN ex₂ l f)
        (globalBins ex₂ f)
    rw [eq_rawTotal h, eq_missingN h, eq_globalBins h]

theorem eq_priorProb (h : List.Perm ex₁ ex₂) (l : Label) :
    (train ex₁).priorProb l = (train ex₂).priorProb l := by
  show eleProb (labelN ex₁ l) ex₁.length (labelsOf ex₁).length =
    eleProb (labelN ex₂ l) ex₂.length (labelsOf ex₂).length
  rw [perm_labelN h, h.length_eq, (perm_labelsOf h).length_eq]

theorem eq_hasPD (h : List.Perm ex₁ ex₂) (l : Label) (f : Fname) :
    (train ex₁).hasPD l f = (train ex₂).hasPD l f := by
  unfold Model.hasPD
  apply decide_eq_decide.mpr
  rw [mem_pdKeys_train, mem_pdKeys_train]
  rw [(perm_labelsOf h).mem_iff, (perm_fnamesOf h).mem_iff]

theorem eq_keepFname (h : List.Perm ex₁ ex₂) (f : Fname) :
    keepFname (train ex₁) f = keepFname (train ex₂) f := by
  apply Bool.coe_iff_coe.mp
  rw [keepFname, keepFname, train_labels, train_labels,
    List.any_eq_true, List.any_eq_true]
  constructor
  · rintro ⟨l, hl, hpd⟩
    exact ⟨l, (perm_labelsOf h).mem_iff.mp hl, (eq_hasPD h l f) ▸ hpd⟩
  · rintro ⟨l, hl, hpd⟩
    exact ⟨l, (perm_labelsOf h).mem_iff.mpr hl, (eq_hasPD h l f).symm ▸ hpd⟩

theorem eq_filterFS (h : List.Perm ex₁ ex₂) (fs : FeatureSet) :
    filterFS (train ex₁) fs = filterFS (train ex₂) fs := by
  unfold filterFS
  exact List.filter_congr fun p _ => eq_keepFname h p.1

theorem eq_featureFactor (h : List.Perm ex₁ ex₂) (ov : Overrides) (l : Label)
    (f : Fname) (v : Fval) :
    featureFactor (train ex₁) ov l f v = featureFactor (train ex₂) ov l f v := by
  unfold featureFactor
  rw [eq_hasPD h l f, eq_condProb h l f (some v)]

theorem eq_labelWeight (h : List.Perm ex₁ ex₂) (ov : Overrides) (A : FeatureSet)
    (l : Label) :
    labelWeight (train ex₁) ov A l = labelWeight (train ex₂) ov A l := by
  unfold labelWeight
  rw [eq_priorProb h l]
  exact foldl_congrF _ _ (fun b p => by rw [eq_featureFactor h ov l p.1 p.2]) A _

theorem perm_pdKeys (h : List.Perm ex₁ ex₂) :
    List.Perm (train ex₁).pdKeys (train ex₂).pdKeys := by
  show List.Perm ((labelsOf ex₁).flatMap fun l => (fnamesOf ex₁).map fun f => (l, f))
    ((labelsOf ex₂).flatMap fun l => (fnamesOf ex₂).map fun f => (l, f))
  exact (List.Perm.flatMap_right _ (perm_labelsOf h)).trans
    (List.Perm.flatMap_left _ fun l _ => (perm_fnamesOf h).map _)

theorem perm_condSamples (h : List.Perm ex₁ ex₂) (l : Label) (f : Fname) :
    List.Perm ((train ex₁).condSamples l f) ((train ex₂).condSamples l f) := by
  show List.Perm
    ((rawValuesFor ex₁ l f).map some ++ (if 0 < missingN ex₁ l f then [none] else []))
    ((rawValuesFor ex₂ l f).map some ++ (if 0 < missingN ex₂ l f then [none] else []))
  rw [eq_missingN h]
  exact List.Perm.append_right _ ((perm_rawValuesFor h l f).map some)

theorem perm_encounters (h : List.Perm ex₁ ex₂) :
    List.Perm (encounters (train ex₁)) (encounters (train ex₂)) := by
  unfold encounters
  refine (List.Perm.flatMap_right _ (perm_pdKeys h)).trans ?_
  refine List.Perm.flatMap_left _ fun lf _ => ?_
  refine ((perm_condSamples h lf.1 lf.2).map _).trans ?_
  have heq : ((train ex₂).condSamples lf.1 lf.2).map
      (fun v => ((lf.2, v), (train ex₁).condProb lf.1 lf.2 v)) =
    ((train ex₂).condSamples lf.1 lf.2).map
      (fun v => ((lf.2, v), (train ex₂).condProb lf.1 lf.2 v)) :=
    List.map_congr_left fun v _ => by rw [eq_condProb h lf.1 lf.2 v]
  rw [heq]

theorem foldl_min_perm (P₁ P₂ : List ℚ) (h : List.Perm P₁ P₂) (a : ℚ) :
    P₁.foldl (fun a p => min p a) a = P₂.foldl (fun a p => min p a) a :=
  h.foldl_eq' (fun x _ y _ z => min_left_comm y x z) a

theorem foldl_max_perm (P₁ P₂ : List ℚ) (h : List.Perm P₁ P₂) (a : ℚ) :
    P₁.foldl (fun a p => max p a) a = P₂.foldl (fun a p => max p a) a :=
  h.foldl_eq' (fun x _ y _ z => max_left_comm y x z) a

end PermInvariance

/-! ### Shape of the normalized dictionary over a label list -/

theorem alookup_map_pair (L : List Label) (g : Label → ℚ) (a : Label) :
    alookup a (L.map fun x => (x, g x)) = if a ∈ L then some (g a) else none := by
  induction L with
  | nil => simp [alookup]
  | cons x L ih =>
    simp only [List.map_cons, alookup]
    by_cases hx : x = a
    · subst hx
      simp [List.mem_cons]
    · rw [if_neg hx, ih]
      have hax : ¬ a = x := fun he => hx he.symm
      by_cases ha : a ∈ L
      · simp [ha, List.mem_cons]
      · simp [ha, List.mem_cons, hax]

theorem dictProb_map_pair (L : List Label) (g : Label → ℚ) (a : Label) :
    dictProb (L.map fun x => (x, g x)) a = if a ∈ L then g a else 0 := by
  rw [dictProb, alookup_map_pair]
  by_cases ha : a ∈ L <;> simp [ha]

theorem normalizeDict_map_labels (L : List Label) (g : Label → ℚ) :
    normalizeDict (L.map fun x => (x, g x)) =
      if L = [] then none
      else if (L.map g).sum = 0 then some (L.map fun x => (x, (1 : ℚ) / L.length))
      else some (L.map fun x => (x, g x / (L.map g).sum)) := by
  have hsnd : ((L.map fun x => (x, g x)).map Prod.snd) = L.map g := by
    rw [List.map_map]; rfl
  unfold normalizeDict
  rw [hsnd]
  by_cases hnil : L = []
  · subst hnil; rfl
  · rw [if_neg hnil,
      if_neg (by simpa [List.isEmpty_iff] using hnil :
        ¬ ((L.map fun x => (x, g x)).isEmpty = true))]
    by_cases hS : (L.map g).sum = 0
    · rw [if_pos hS, if_pos hS]
      congr 1
      rw [List.map_map]
      apply List.map_congr_left
      intro x _
      simp [List.length_map]
    · rw [if_neg hS, if_neg hS]
      congr 1
      rw [List.map_map]
      rfl

/-! ### Invariance of the observable operations under training-order permutation -/

section PermObservable

variable {ex₁ ex₂ : List (FeatureSet × Label)}

theorem eq_scoreAt (h : List.Perm ex₁ ex₂) (ov : Overrides) (fs : FeatureSet)
    (l : Label) :
    scoreAt (train ex₁) ov fs l = scoreAt (train ex₂) ov fs l := by
  have hg : ∀ x, labelWeight (train ex₂) ov (filterFS (train ex₂) fs) x
      = labelWeight (train ex₁) ov (filterFS (train ex₁) fs) x := by
    intro x
    rw [← eq_filterFS h fs]
    exact (eq_labelWeight h ov _ x).symm
  unfold scoreAt prob_classify scoreFiltered
  rw [train_labels, train_labels]
  rw [List.map_congr_left (l := labelsOf ex₂) fun x _ =>
    congrArg (fun w => (x, w)) (hg x)]
  rw [normalizeDict_map_labels, normalizeDict_map_labels]
  by_cases hnil : labelsOf ex₁ = []
  · have h2 := perm_labelsOf h
    rw [hnil] at h2
    rw [if_pos hnil, if_pos (List.Perm.eq_nil h2.symm)]
  · have hnil2 : labelsOf ex₂ ≠ [] := fun he => by
      have h2 := perm_labelsOf h
      rw [he] at h2
      exact hnil (List.Perm.eq_nil h2)
    rw [if_neg hnil, if_neg hnil2]
    have hsum := ((perm_labelsOf h).map
      fun x => labelWeight (train ex₁) ov (filterFS (train ex₁) fs) x).sum_eq
    rw [← hsum]
    by_cases hS : ((labelsOf ex₁).map
        fun x => labelWeight (train ex₁) ov (filterFS (train ex₁) fs) x).sum = 0
    · rw [if_pos hS, if_pos hS]
      simp only [Option.map_some']
      congr 1
      rw [dictProb_map_pair, dictProb_map_pair, (perm_labelsOf h).length_eq]
      by_cases hl : l ∈ labelsOf ex₁
      · rw [if_pos hl, if_pos ((perm_labelsOf h).mem_iff.mp hl)]
      · rw [if_neg hl, if_neg fun hx => hl ((perm_labelsOf h).mem_iff.mpr hx)]
    · rw [if_neg hS, if_neg hS]
      simp only [Option.map_some']
      congr 1
      rw [dictProb_map_pair, dictProb_map_pair]
      by_cases hl : l ∈ labelsOf ex₁
      · rw [if_pos hl, if_pos ((perm_labelsOf h).mem_iff.mp hl)]
      · rw [if_neg hl, if_neg fun hx => hl ((perm_labelsOf h).mem_iff.mpr hx)]

theorem eq_classify (h : List.Perm ex₁ ex₂) (ov : Overrides) (fs : FeatureSet) :
    classify (train ex₁) ov fs = classify (train ex₂) ov fs := by
  have hg : ∀ x, labelWeight (train ex₂) ov (filterFS (train ex₂) fs) x
      = labelWeight (train ex₁) ov (filterFS (train ex₁) fs) x := by
    intro x
    rw [← eq_filterFS h fs]
    exact (eq_labelWeight h ov _ x).symm
  unfold classify prob_classify scoreFiltered
  rw [train_labels, train_labels]
  rw [List.map_congr_left (l := labelsOf ex₂) fun x _ =>
    congrArg (fun w => (x, w)) (hg x)]
  rw [normalizeDict_map_labels, normalizeDict_map_labels]
  by_cases hnil : labelsOf ex₁ = []
  · have h2 := perm_labelsOf h
    rw [hnil] at h2
    rw [if_pos hnil, if_pos (List.Perm.eq_nil h2.symm)]
  · have hnil2 : labelsOf ex₂ ≠ [] := fun he => by
      have h2 := perm_labelsOf h
      rw [he] at h2
      exact hnil (List.Perm.eq_nil h2)
    rw [if_neg hnil, if_neg hnil2]
    have hsum := ((perm_labelsOf h).map
      fun x => labelWeight (train ex₁) ov (filterFS (train ex₁) fs) x).sum_eq
    rw [← hsum]
    by_cases hS : ((labelsOf ex₁).map
        fun x => labelWeight (train ex₁) ov (filterFS (train ex₁) fs) x).sum = 0
    · rw [if_pos hS, if_pos hS]
      simp only [Option.some_bind]
      rw [(perm_labelsOf h).length_eq]
      exact dictMax_perm _ _ ((perm_labelsOf h).map _)
    · rw [if_neg hS, if_neg hS]
      simp only [Option.some_bind]
      exact dictMax_perm _ _ ((perm_labelsOf h).map _)

theorem eq_mif_minprob (h : List.Perm ex₁ ex₂) (ft : Feat) :
    (mifFinal (train ex₁)).minprob ft = (mifFinal (train ex₂)).minprob ft := by
  rw [mifFinal_minprob, mifFinal_minprob]
  have hp : List.Perm (mifProbs (train ex₁) ft) (mifProbs (train ex₂) ft) := by
    unfold mifProbs
    exact ((perm_encounters h).filter _).map _
  exact foldl_min_perm _ _ hp 1

theorem eq_mif_maxprob (h : List.Perm ex₁ ex₂) (ft : Feat) :
    (mifFinal (train ex₁)).maxprob ft = (mifFinal (train ex₂)).maxprob ft := by
  rw [mifFinal_maxprob, mifFinal_maxprob]
  have hp : List.Perm (mifProbs (train ex₁) ft) (mifProbs (train ex₂) ft) := by
    unfold mifProbs
    exact ((perm_encounters h).filter _).map _
  exact foldl_max_perm _ _ hp 0

theorem mifFinal_nodup (m : Model) : (mifFinal m).features.Nodup :=
  mif_foldl_nodup (encounters m) _ List.nodup_nil

theorem eq_mif (h : List.Perm ex₁ ex₂) (n : ℕ) :
    most_informative_features (train ex₁) n = most_informative_features (train ex₂) n := by
  have hfeatperm : List.Perm (mifFinal (train ex₁)).features
      (mifFinal (train ex₂)).features := by
    refine (List.perm_ext_iff_of_nodup (mifFinal_nodup _) (mifFinal_nodup _)).mpr fun ft => ?_
    rw [mifFinal_mem, mifFinal_mem, eq_mif_minprob h ft,
      List.Perm.mem_iff ((perm_encounters h).map Prod.fst)]
  have hcanon : (mifFinal (train ex₁)).features.mergeSort featLE =
      (mifFinal (train ex₂)).features.mergeSort featLE := by
    haveI : IsAntisymm Feat (fun a b => featLE a b = true) := ⟨fun a b => featLE_antisymm⟩
    exact List.eq_of_perm_of_sorted
      (((List.mergeSort_perm _ _).trans hfeatperm).trans (List.mergeSort_perm _ _).symm)
      (List.sorted_mergeSort featLE_trans featLE_total _)
      (List.sorted_mergeSort featLE_trans featLE_total _)
  have hle : mifLE (mifFinal (train ex₁)) = mifLE (mifFinal (train ex₂)) := by
    funext a b
    unfold mifLE
    rw [eq_mif_minprob h a, eq_mif_minprob h b, eq_mif_maxprob h a, eq_mif_maxprob h b]
  unfold most_informative_features
  rw [hcanon, hle]

end PermObservable

/-! ### Claim C5 -/

/-- C5 counterexample: two training sequences that are permutations of each
other whose trained models expose different labels sequences — the method
`labels` returns the labels in first-occurrence order of the input, so the
observable behaviour is not literally identical under permutation. -/
theorem C5_labels_order_counterexample :
    List.Perm ([(([] : FeatureSet), "a"), ([], "b")] : List (FeatureSet × Label))
        [(([] : FeatureSet), "b"), ([], "a")]
    ∧ (train [(([] : FeatureSet), "a"), ([], "b")]).labels ≠
        (train [(([] : FeatureSet), "b"), ([], "a")]).labels :=
  ⟨by decide, by decide⟩

/-- C5 (amended): training on a permuted example list produces a model with
the same label SET (the labels list may be reordered, following first
occurrence in the input — the only observable difference), the same
`score_all` probability for every label on every feature set, the same
`classify` result on every feature set (including tie-breaking, which uses
the maximal (probability, label) pair and hence does not depend on order),
and the same `most_informative_features` output for every n; the model thus
depends only on the multiset of examples, up to the enumeration order of the
labels list. -/
theorem C5_amended_train_perm_invariant (ex₁ ex₂ : List (FeatureSet × Label))
    (h : List.Perm ex₁ ex₂) :
    (∀ l, l ∈ (train ex₁).labels ↔ l ∈ (train ex₂).labels)
    ∧ (∀ ov fs l, scoreAt (train ex₁) ov fs l = scoreAt (train ex₂) ov fs l)
    ∧ (∀ ov fs, classify (train ex₁) ov fs = classify (train ex₂) ov fs)
    ∧ ∀ n, most_informative_features (train ex₁) n =
        most_informative_features (train ex₂) n :=
  ⟨fun _ => (perm_labelsOf h).mem_iff, fun ov fs l => eq_scoreAt h ov fs l,
    fun ov fs => eq_classify h ov fs, fun n => eq_mif h n⟩

/-- A two-example corpus and its reversal, used as the witness input. -/
def exB1 : List (FeatureSet × Label) := [([("w", "buy")], "spam"), ([("w", "hi")], "ham")]

/-- The reversal of exB1. -/
def exB2 : List (FeatureSet × Label) := [([("w", "hi")], "ham"), ([("w", "buy")], "spam")]

/-- Witness for the amended C5 at the concrete permuted corpora. -/
theorem C5_amended_train_perm_invariant_w :
    ("spam" ∈ (train exB1).labels ↔ "spam" ∈ (train exB2).labels)
    ∧ scoreAt (train exB1) ov0 [("w", "buy")] "spam" =
        scoreAt (train exB2) ov0 [("w", "buy")] "spam"
    ∧ classify (train exB1) ov0 [("w", "buy")] = classify (train exB2) ov0 [("w", "buy")]
    ∧ most_informative_features (train exB1) 5 = most_informative_features (train exB2) 5 :=
  ⟨(C5_amended_train_perm_invariant exB1 exB2 (by decide)).1 "spam",
   (C5_amended_train_perm_invariant exB1 exB2 (by decide)).2.1 ov0 [("w", "buy")] "spam",
   (C5_amended_train_perm_invariant exB1 exB2 (by decide)).2.2.1 ov0 [("w", "buy")],
   (C5_amended_train_perm_invariant exB1 exB2 (by decide)).2.2.2 5⟩

end NB
